import Mathlib

/-!
Shallow embedding of `src/bibtexParser.py` (class `bibtexParser`) and proofs
about its pipeline.  Text is modelled as `List Char`; the regular expressions
appearing in the source are embedded as executable scanners specialised to the
concrete patterns compiled in the source:

* `pattern_chunk_split = re.compile(r"(@[A-Za-z]+{)")` — `matchDelim` /
  `splitChunks` reproduce `re.split` with this capturing pattern;
* the default field pattern of `parse_metadata`,
  `(\w+)\s*=\s*(?:"([^"]*)"|\x7b([^\x7d]*)\x7d|(\w+))` — `matchField` /
  `findall` reproduce `re.findall` with this pattern.

Stateful methods become explicit functions on `ParserState`; a Python
exception that escapes a method is an explicit error value.
-/

/-- The character `{` (written by code point to keep literals unambiguous). -/
def lb : Char := Char.ofNat 123

/-- The character `}`. -/
def rb : Char := Char.ofNat 125

/-- The character `"`. -/
def dq : Char := Char.ofNat 34

/-- The character `@`, the entry-delimiter marker. -/
def atChar : Char := Char.ofNat 64

/-- Python `str.isspace` characters relevant to `\s` and `str.strip` (ASCII). -/
def isPySpace (c : Char) : Bool :=
  c = ' ' || c = '\t' || c = '\n' || c = '\r' || c = Char.ofNat 11 || c = Char.ofNat 12

/-- Python `\w` word characters (ASCII model): letters, digits, underscore. -/
def isWordChar (c : Char) : Bool :=
  c.isAlpha || c.isDigit || c = '_'

/-- Left part of Python `str.strip`: drop leading whitespace. -/
def lstrip (l : List Char) : List Char := l.dropWhile isPySpace

/-- Right part of Python `str.strip`: drop trailing whitespace. -/
def rstrip (l : List Char) : List Char := (l.reverse.dropWhile isPySpace).reverse

/-- Python `str.strip`: drop leading and trailing whitespace. -/
def pyStrip (l : List Char) : List Char := rstrip (lstrip l)

/--
Attempt to match the compiled pattern `(@[A-Za-z]+{)` at the head of `l`
(the pattern from `self.pattern_chunk_split`, line 19 of the source).
On success returns the matched delimiter text and the remaining input.
`[A-Za-z]+` is greedy; backtracking cannot help because the character after a
maximal letter run is not a letter, so the run must be maximal and followed
by `{`.
-/
def matchDelim (l : List Char) : Option (List Char × List Char) :=
  match l with
  | [] => none
  | c :: rest =>
    if c = atChar then
      let letters := rest.takeWhile Char.isAlpha
      if letters = [] then none
      else
        match rest.dropWhile Char.isAlpha with
        | d :: r2 => if d = lb then some (atChar :: (letters ++ [lb]), r2) else none
        | [] => none
    else none

/--
`re.split` with the capturing pattern `(@[A-Za-z]+{)`: the result alternates
text segments and captured delimiter tokens.  `fuel` bounds the recursion
(one unit per consumed character suffices); `acc` holds the current segment
reversed.
-/
def splitChunksAux : Nat → List Char → List Char → List (List Char)
  | _, acc, [] => [acc.reverse]
  | 0, acc, l => [acc.reverse ++ l]
  | fuel + 1, acc, c :: rest =>
    match matchDelim (c :: rest) with
    | some (delim, rest2) => acc.reverse :: delim :: splitChunksAux fuel [] rest2
    | none => splitChunksAux fuel (c :: acc) rest

/-- `re.split(self.pattern_chunk_split, s)` as used on line 60 of the source. -/
def splitChunks (l : List Char) : List (List Char) :=
  splitChunksAux l.length [] l

/--
`bibtexParser._extract_entry_metadata` (source lines 146-159): strip the
chunk; return it if it is non-empty and does not start with `@`, else `None`.
-/
def extractEntryMetadata (chunk : List Char) : Option (List Char) :=
  match pyStrip chunk with
  | [] => none
  | c :: rest => if c = atChar then none else some (c :: rest)

/--
The pure content of `bibtexParser.extract_metadata` (source lines 49-77) on a
present string: split the stripped text on the chunk pattern and keep the
chunks accepted by `extractEntryMetadata`, in order.
-/
def extract_metadata (s : List Char) : List (List Char) :=
  (splitChunks (pyStrip s)).filterMap extractEntryMetadata

/-- Whether the pattern `@[A-Za-z]+{` matches anywhere in `l`. -/
def containsDelim : List Char → Bool
  | [] => false
  | c :: r => (matchDelim (c :: r)).isSome || containsDelim r

/--
Attempt to match the default field pattern of `parse_metadata`
(source line 86) at the head of `l`.  The pattern is
`(\w+)\s*=\s*(?:"([^"]*)"|\x7b([^\x7d]*)\x7d|(\w+))` with the three value
alternatives tried in order (quoted, braced, bareword).  On success returns
`(key, value, rest)` where `value` is the content of whichever value group
participated (possibly empty for the quoted/braced forms) and `rest` is the
input after the match.  Greedy `\w+`/`[^"]*`/`[^\x7d]*` runs are maximal
(`takeWhile`); backtracking to a shorter run cannot produce a match because
the character ending a maximal run never satisfies the next pattern element.
-/
def matchField (l : List Char) : Option (List Char × List Char × List Char) :=
  let key := l.takeWhile isWordChar
  if key = [] then none
  else
    match (l.dropWhile isWordChar).dropWhile isPySpace with
    | [] => none
    | c :: r3 =>
      if c = '=' then
        match r3.dropWhile isPySpace with
        | [] => none
        | d :: r5 =>
          if d = dq then
            match r5.dropWhile (fun x => x != dq) with
            | _ :: r6 => some (key, r5.takeWhile (fun x => x != dq), r6)
            | [] => none
          else if d = lb then
            match r5.dropWhile (fun x => x != rb) with
            | _ :: r6 => some (key, r5.takeWhile (fun x => x != rb), r6)
            | [] => none
          else
            let v := (d :: r5).takeWhile isWordChar
            if v = [] then none
            else some (key, v, (d :: r5).dropWhile isWordChar)
      else none

/--
`re.findall` with the default field pattern: scan left to right; at each
position try `matchField`; on success record the `(key, value)` groups and
continue after the match, otherwise advance one character.  `fuel` bounds the
recursion: every step consumes at least one character and exactly one unit of
fuel, so `fuel = l.length` (as used by `findall`) never runs out.
-/
def findallAux : Nat → List Char → List (List Char × List Char)
  | _, [] => []
  | 0, _ => []
  | fuel + 1, c :: rest =>
    match matchField (c :: rest) with
    | some (k, v, r) => (k, v) :: findallAux fuel r
    | none => findallAux fuel rest

/-- `re.findall(pattern, metadata)` for the default pattern (source line 181). -/
def findall (l : List Char) : List (List Char × List Char) :=
  findallAux l.length l

/-- Python `str.lower` (ASCII model), applied to matched keys. -/
def toLowerStr (l : List Char) : List Char := l.map Char.toLower

/--
A Python dict with string keys and values that are strings or `None`
(`None` appears once DOI resolution fails), as an insertion-ordered
association list with unique keys.
-/
abbrev Dict : Type := List (List Char × Option (List Char))

/-- Exceptions that can escape the embedded methods. -/
inductive PyErr where
  | valueError
  | attributeError
deriving DecidableEq, Repr

/-- Python `d[k]`-style lookup: `some v` when the key is present. -/
def dictGet : Dict → List Char → Option (Option (List Char))
  | [], _ => none
  | p :: d, k => if p.1 = k then some p.2 else dictGet d k

/-- Python `k in d`. -/
def hasKey : Dict → List Char → Bool
  | [], _ => false
  | p :: d, k => p.1 = k || hasKey d k

/-- Python `d[k] = v`: overwrite the key's entry in place when the key is
present (keys are unique in a Python dict, so updating the occurrence), and
append a new entry at the end otherwise. -/
def dictSet : Dict → List Char → Option (List Char) → Dict
  | [], k, v => [(k, v)]
  | p :: d, k, v => if p.1 = k then (k, v) :: d else p :: dictSet d k v

/--
`bibtexParser._parse_metadata` (source lines 161-191) with the default
pattern.  Python filters `None`/`""` out of each match tuple and then unpacks
the remainder as `key, value` pairs in a dict comprehension
(`{key.lower(): value for key, value in matches}`, line 186).  A match whose
value group matched the *empty string* is filtered down to a 1-tuple and the
unpacking raises `ValueError`, which the method's `except re.error` clause
does not catch; with the (valid) default pattern no `re.error` can occur.
Otherwise each match contributes `key.lower() ↦ value`, later matches
overwriting earlier ones.
-/
def _parse_metadata (metadata : List Char) : Except PyErr Dict :=
  let ms := findall metadata
  if ms.any (fun p => p.2.isEmpty) then Except.error PyErr.valueError
  else Except.ok (ms.foldl (fun d p => dictSet d (toLowerStr p.1) (some p.2)) [])

/--
The loop of `bibtexParser.parse_metadata` (source lines 88-95): append the
parse of each metadata chunk to the accumulated `parsed_entries`.  When
`_parse_metadata` raises, nothing is appended for the failing chunk, the
remaining chunks are not processed, and the exception propagates (second
component).
-/
def parse_metadata_go : List (List Char) → List Dict → List Dict × Option PyErr
  | [], acc => (acc, none)
  | m :: ms, acc =>
    match _parse_metadata m with
    | Except.ok d => parse_metadata_go ms (acc ++ [d])
    | Except.error e => (acc, some e)

/-- C4: a split segment is accepted as entry metadata if and only if, after
trimming whitespace, it is non-empty and its first character is not `@`; the
accepted metadata is the trimmed segment, rejected segments yield `none` (and
are dropped by the `filterMap` in `extract_metadata`) without any error. -/
theorem c4_filter_policy (chunk : List Char) :
    extractEntryMetadata chunk =
      (if pyStrip chunk ≠ [] ∧ (pyStrip chunk).head? ≠ some atChar
       then some (pyStrip chunk) else none) ∧
    ∀ s : List Char,
      extract_metadata s = (splitChunks (pyStrip s)).filterMap extractEntryMetadata := by
  refine ⟨?_, fun s => rfl⟩
  unfold extractEntryMetadata
  match h : pyStrip chunk with
  | [] => simp
  | c :: rest =>
    by_cases hc : c = atChar
    · simp [hc]
    · simp [hc, Ne.symm hc]

/-- The metadata chunk `x = \x7b\x7d` (a field with an empty braced value). -/
def exEmptyValue : List Char := ['x', ' ', '=', ' ', lb, rb]

/-- A metadata chunk with no recognizable `key = value` pair at all. -/
def exNoFields : List Char := ['j', 'u', 'n', 'k', ' ', 'o', 'n', 'l', 'y']

/-- C7: the claim says the Field Parser never fails on any chunk under the
default pattern.  The code does satisfy the zero-match half (a chunk with no
`key = value` pairs parses to the empty mapping), but a chunk containing a
field with an empty quoted/braced value — e.g. `x = \x7b\x7d` — makes the
dict comprehension of `_parse_metadata` raise `ValueError` (the empty matched
group is filtered out of the tuple, leaving nothing to unpack as the value),
and that exception escapes the method: a code bug relative to the documented
graceful-degeneracy contract. -/
theorem c7_empty_value_raises :
    _parse_metadata exEmptyValue = Except.error PyErr.valueError ∧
    _parse_metadata exNoFields = Except.ok [] := by
  constructor <;> rfl

/--
Specification of the `parse_metadata` loop: the result extends the
accumulated list by one parsed record per processed chunk, in order; on an
escaping exception the remaining chunks contribute nothing.
-/
theorem parse_go_spec (ms : List (List Char)) (acc : List Dict) :
    ∃ ds : List Dict,
      (parse_metadata_go ms acc).1 = acc ++ ds ∧
      ds.length ≤ ms.length ∧
      (∀ i, i < ds.length → ∃ m d, ms[i]? = some m ∧ ds[i]? = some d ∧
        _parse_metadata m = Except.ok d) ∧
      ((parse_metadata_go ms acc).2 = none → ds.length = ms.length) := by
  induction ms generalizing acc with
  | nil =>
    refine ⟨[], by simp [parse_metadata_go], by simp, ?_, by simp⟩
    intro i hi
    simp at hi
  | cons m mt ih =>
    cases hm : _parse_metadata m with
    | error e =>
      refine ⟨[], ?_, by simp, ?_, ?_⟩
      · simp [parse_metadata_go, hm]
      · intro i hi
        simp at hi
      · intro hnone
        rw [show (parse_metadata_go (m :: mt) acc).2 = some e by
              simp [parse_metadata_go, hm]] at hnone
        cases hnone
    | ok d =>
      obtain ⟨ds, h1, h2, h3, h4⟩ := ih (acc ++ [d])
      refine ⟨d :: ds, ?_, ?_, ?_, ?_⟩
      · rw [show parse_metadata_go (m :: mt) acc = parse_metadata_go mt (acc ++ [d]) by
              simp [parse_metadata_go, hm]]
        rw [h1, List.append_assoc, List.singleton_append]
      · simpa using Nat.succ_le_succ h2
      · intro i hi
        match i with
        | 0 => exact ⟨m, d, by simp, by simp, hm⟩
        | Nat.succ j =>
          obtain ⟨m', d', hm1, hd1, hx⟩ := h3 j (by simpa using Nat.lt_of_succ_lt_succ hi)
          exact ⟨m', d', by simpa using hm1, by simpa using hd1, hx⟩
      · intro hnone
        rw [show (parse_metadata_go (m :: mt) acc).2 = (parse_metadata_go mt (acc ++ [d])).2 by
              simp [parse_metadata_go, hm]] at hnone
        simp [h4 hnone]

/--
The in-memory state of a `bibtexParser` instance as set up by `__init__`
(source lines 14-23): the file path, the optional raw text buffer (unset =
Python `None`), and the two accumulating lists.
-/
structure ParserState where
  file_path : List Char
  bibtex_string : Option (List Char)
  metadata_entries : List (List Char)
  parsed_entries : List Dict
deriving DecidableEq, Repr

/-- `bibtexParser.__init__(file_path)`: buffer unset, both lists empty. -/
def initState (fp : List Char) : ParserState :=
  { file_path := fp, bibtex_string := none, metadata_entries := [], parsed_entries := [] }

/-- The required extension `.bib`. -/
def bibExt : List Char := ['.', 'b', 'i', 'b']

/--
`bibtexParser.read_bibtex_file` (source lines 25-47) against a file system
`fs` mapping a path to its content (`none` = missing file): wrong extension
or missing file abort after logging, leaving `bibtex_string` unset; otherwise
the content (possibly empty) is stored.
-/
def read_bibtex_file (fs : List Char → Option (List Char)) (st : ParserState) : ParserState :=
  if bibExt.isSuffixOf st.file_path then
    match fs st.file_path with
    | none => st
    | some content => { st with bibtex_string := some content }
  else st

/--
`bibtexParser.extract_metadata` as a state transition (source lines 49-77).
When `bibtex_string` is unset, `self.bibtex_string.strip()` raises
`AttributeError` (`NoneType` has no `strip`), which the method's
`except re.error` clause does not catch, so the exception escapes; otherwise
the accepted chunks are appended to `metadata_entries`.
-/
def extract_metadata_st (st : ParserState) : ParserState × Option PyErr :=
  match st.bibtex_string with
  | none => (st, some PyErr.attributeError)
  | some s =>
    ({ st with metadata_entries := st.metadata_entries ++ extract_metadata s }, none)

/-- `bibtexParser.parse_metadata` (default pattern) as a state transition. -/
def parse_metadata_st (st : ParserState) : ParserState × Option PyErr :=
  ({ st with parsed_entries := (parse_metadata_go st.metadata_entries st.parsed_entries).1 },
   (parse_metadata_go st.metadata_entries st.parsed_entries).2)

/-- The URL base prepended to a DOI (source line 213). -/
def doiBase : List Char := "http://dx.doi.org/".data

/-- The dict key `doi` used by `add_urls_from_doi`. -/
def doiKey : List Char := ['d', 'o', 'i']

/-- The dict key `url`. -/
def urlKey : List Char := ['u', 'r', 'l']

/-- The dict key `doi_url`. -/
def doiUrlKey : List Char := ['d', 'o', 'i', '_', 'u', 'r', 'l']

/--
`bibtexParser._get_url_from_doi` (source lines 193-225) against an abstract
redirect-following transport `http` (the claims require DOI resolution to be
held fixed / mocked).  Every exception inside the method body — including a
`TypeError` from concatenating a non-string — is caught by its two `except`
clauses, so the method always returns the final URL or `None`.
-/
def _get_url_from_doi (http : List Char → Except Unit (List Char))
    (doi : Option (List Char)) : Option (List Char) :=
  match doi with
  | none => none
  | some d =>
    match http (doiBase ++ d) with
    | Except.ok u => some u
    | Except.error _ => none

/--
The body of the `add_urls_from_doi` loop (source lines 103-109) for one
entry: when the `doi` key is present, both `doi_url` and `url` are
unconditionally assigned the result of `_get_url_from_doi` (possibly `None`);
entries without a `doi` key are untouched.
-/
def add_url_entry (http : List Char → Except Unit (List Char)) (e : Dict) : Dict :=
  if hasKey e doiKey then
    dictSet (dictSet e doiUrlKey (_get_url_from_doi http ((dictGet e doiKey).join)))
      urlKey (_get_url_from_doi http ((dictGet e doiKey).join))
  else e

/--
`bibtexParser.add_urls_from_doi` (source lines 97-110): each iteration of the
loop reads and writes only `self.parsed_entries[idx]`, so the loop is a map
over the entries; no exception can escape (see `_get_url_from_doi`).
-/
def add_urls_from_doi (http : List Char → Except Unit (List Char))
    (entries : List Dict) : List Dict :=
  entries.map (add_url_entry http)

/-- `add_urls_from_doi` as a state transition. -/
def add_urls_st (http : List Char → Except Unit (List Char)) (st : ParserState) : ParserState :=
  { st with parsed_entries := add_urls_from_doi http st.parsed_entries }

/-- `bibtexParser.extract_parsed_entries` (source lines 112-117) returns a
rendering (`json.dumps`) of `parsed_entries`; the serialization is a faithful
rendering of the returned list, which is what we model. -/
def extract_parsed_entries (st : ParserState) : List Dict :=
  st.parsed_entries

/--
`bibtexParser.parse_bibtex` (source lines 119-137): run the four stages in
order inside a broad `try`; any escaping exception is logged and the method
returns `None`.  With `json=True` the string built by
`extract_parsed_entries` is discarded and `None` is returned; with
`json=False` the parsed entries are returned.
-/
def parse_bibtex (fs : List Char → Option (List Char))
    (http : List Char → Except Unit (List Char))
    (st : ParserState) (useJson : Bool) : ParserState × Option (List Dict) :=
  let st1 := read_bibtex_file fs st
  match extract_metadata_st st1 with
  | (st2, some _) => (st2, none)
  | (st2, none) =>
    match parse_metadata_st st2 with
    | (st3, some _) => (st3, none)
    | (st3, none) =>
      let st4 := add_urls_st http st3
      if useJson then
        let _ := extract_parsed_entries st4
        (st4, none)
      else (st4, some st4.parsed_entries)

/-- C10: for every file system, resolver, and starting state, `parse_bibtex`
called with `json=True` returns `None` (the JSON string built by
`extract_parsed_entries` is discarded because the `if json:` branch has no
`return`), and only the `json=False` call can return the list of parsed
records (it returns that list on success and `None` when a stage raised). -/
theorem c10_json_true_returns_none (fs : List Char → Option (List Char))
    (http : List Char → Except Unit (List Char)) (st : ParserState) :
    (parse_bibtex fs http st true).2 = none ∧
    ((parse_bibtex fs http st false).2 = none ∨
      (parse_bibtex fs http st false).2 =
        some ((parse_bibtex fs http st false).1.parsed_entries)) := by
  rcases hx : extract_metadata_st (read_bibtex_file fs st) with ⟨st2, e2⟩
  cases e2 with
  | some e => exact ⟨by simp [parse_bibtex, hx], Or.inl (by simp [parse_bibtex, hx])⟩
  | none =>
    rcases hp : parse_metadata_st st2 with ⟨st3, e3⟩
    cases e3 with
    | some e =>
      exact ⟨by simp [parse_bibtex, hx, hp], Or.inl (by simp [parse_bibtex, hx, hp])⟩
    | none =>
      exact ⟨by simp [parse_bibtex, hx, hp], Or.inr (by simp [parse_bibtex, hx, hp])⟩

/-- C2: the output of the full pipeline run from a freshly initialised parser
depends only on the file content at the parser's path (and the fixed DOI
resolver): two runs over the same unchanged content yield identical output. -/
theorem c2_pipeline_deterministic (fs1 fs2 : List Char → Option (List Char))
    (http : List Char → Except Unit (List Char)) (p : List Char) (b : Bool)
    (h : fs1 p = fs2 p) :
    parse_bibtex fs1 http (initState p) b = parse_bibtex fs2 http (initState p) b := by
  have hr : read_bibtex_file fs1 (initState p) = read_bibtex_file fs2 (initState p) := by
    unfold read_bibtex_file initState
    simp only
    rw [h]
  unfold parse_bibtex
  rw [hr]

/-- A path with the required `.bib` extension. -/
def pBib : List Char := ['a', '.', 'b', 'i', 'b']

/-- A path with the wrong extension, rejected by `read_bibtex_file`. -/
def pTxt : List Char := ['r', 'e', 'f', 's', '.', 't', 'x', 't']

/-- A small BibTeX text: `@b\x7bt = y\x7d`. -/
def exContent : List Char := [atChar, 'b', lb, 't', ' ', '=', ' ', 'y', rb]

/-- A file system holding `exContent` at every path. -/
def fsA : List Char → Option (List Char) := fun _ => some exContent

/-- A file system holding `exContent` at `pBib` only. -/
def fsB : List Char → Option (List Char) := fun q => if q = pBib then some exContent else none

/-- A transport whose every request fails with a network error. -/
def httpFail : List Char → Except Unit (List Char) := fun _ => Except.error ()

/-- Witness for C2: concrete file systems agreeing at the parser's path. -/
theorem c2_witness :
    fsA pBib = fsB pBib ∧
    parse_bibtex fsA httpFail (initState pBib) false =
      parse_bibtex fsB httpFail (initState pBib) false :=
  ⟨by decide, c2_pipeline_deterministic fsA fsB httpFail pBib false (by decide)⟩

/-- C8: after an input-validation failure (here: wrong extension) the raw
text buffer stays unset, and on that unset state `parse_metadata` and
`add_urls_from_doi` complete as no-ops — but `extract_metadata` does NOT: it
raises `AttributeError` from `None.strip()` (caught only by the broad handler
in `parse_bibtex`, not inside the stage), contradicting the claim that every
downstream stage treats the unset state as empty.  The spec's defensive
requirement is the documented intent, so this is a code bug. -/
theorem c8_unset_state_fault :
    read_bibtex_file fsB (initState pTxt) = initState pTxt ∧
    extract_metadata_st (initState pTxt) = (initState pTxt, some PyErr.attributeError) ∧
    parse_metadata_st (initState pTxt) = (initState pTxt, none) ∧
    add_urls_st httpFail (initState pTxt) = initState pTxt ∧
    (parse_bibtex fsB httpFail (initState pTxt) false).2 = none := by
  refine ⟨by decide, rfl, by decide, by decide, by decide⟩

/-- C3: after a parse pass started with an empty `parsed_entries`, the number
of parsed records never exceeds the number of metadata chunks; the i-th
record is exactly the successful parse of the i-th chunk (a chunk with no
recognizable fields contributing the empty mapping as a placeholder), and
when no exception escapes the pass the two counts are equal. -/
theorem c3_parse_count_invariant (st : ParserState) (h : st.parsed_entries = []) :
    (parse_metadata_st st).1.parsed_entries.length ≤ st.metadata_entries.length ∧
    (∀ i, i < (parse_metadata_st st).1.parsed_entries.length →
      ∃ m d, st.metadata_entries[i]? = some m ∧
        (parse_metadata_st st).1.parsed_entries[i]? = some d ∧
        _parse_metadata m = Except.ok d) ∧
    ((parse_metadata_st st).2 = none →
      (parse_metadata_st st).1.parsed_entries.length = st.metadata_entries.length) := by
  obtain ⟨ds, h1, h2, h3, h4⟩ := parse_go_spec st.metadata_entries st.parsed_entries
  have h1' : (parse_metadata_go st.metadata_entries st.parsed_entries).1 = ds := by
    rw [h1, h]
    simp
  have hp1 : (parse_metadata_st st).1.parsed_entries = ds := h1'
  have hp2 : (parse_metadata_st st).2 =
      (parse_metadata_go st.metadata_entries st.parsed_entries).2 := rfl
  refine ⟨?_, ?_, ?_⟩
  · rw [hp1]
    exact h2
  · intro i hi
    rw [hp1] at hi
    obtain ⟨m, d, ha, hb, hc⟩ := h3 i hi
    exact ⟨m, d, ha, by rw [hp1]; exact hb, hc⟩
  · intro hnone
    rw [hp1]
    exact h4 (hp2 ▸ hnone)

/-- A state mid-pipeline with two extracted chunks: `t = y` and `junk only`. -/
def stC3 : ParserState :=
  { file_path := pBib, bibtex_string := some exContent,
    metadata_entries := [['t', ' ', '=', ' ', 'y'], exNoFields],
    parsed_entries := [] }

/-- Witness for C3 at a concrete mid-pipeline state. -/
theorem c3_witness :
    stC3.parsed_entries = [] ∧
    ((parse_metadata_st stC3).1.parsed_entries.length ≤ stC3.metadata_entries.length ∧
    (∀ i, i < (parse_metadata_st stC3).1.parsed_entries.length →
      ∃ m d, stC3.metadata_entries[i]? = some m ∧
        (parse_metadata_st stC3).1.parsed_entries[i]? = some d ∧
        _parse_metadata m = Except.ok d) ∧
    ((parse_metadata_st stC3).2 = none →
      (parse_metadata_st stC3).1.parsed_entries.length = stC3.metadata_entries.length)) :=
  ⟨rfl, c3_parse_count_invariant stC3 rfl⟩

/-- Lookup after a Python dict assignment: the assigned key now maps to the
new value, every other key is unaffected. -/
theorem dictGet_dictSet (d : Dict) (k k' : List Char) (v : Option (List Char)) :
    dictGet (dictSet d k' v) k = if k = k' then some v else dictGet d k := by
  induction d with
  | nil =>
    by_cases he : k = k'
    · subst he
      simp [dictSet, dictGet]
    · simp [dictSet, dictGet, he, Ne.symm he]
  | cons p d ih =>
    by_cases hp : p.1 = k'
    · rw [show dictSet (p :: d) k' v = (k', v) :: d by simp [dictSet, hp]]
      by_cases he : k = k'
      · subst he
        simp [dictGet]
      · have hpk : p.1 ≠ k := by rw [hp]; exact Ne.symm he
        simp [dictGet, he, Ne.symm he, hpk]
    · rw [show dictSet (p :: d) k' v = p :: dictSet d k' v by simp [dictSet, hp]]
      by_cases hq : p.1 = k
      · have he : k ≠ k' := by rw [← hq]; exact hp
        simp [dictGet, hq, he]
      · simp [dictGet, hq, ih]

/-- Folding the matches of `findall` into a dict realises last-write-wins on
lowercased keys: looking up `k` finds the value of the *last* match whose
lowercased key is `k` (searching the reversed match list finds it first). -/
theorem buildLookup (ms : List (List Char × List Char)) (d : Dict) (k : List Char) :
    dictGet (ms.foldl (fun acc p => dictSet acc (toLowerStr p.1) (some p.2)) d) k =
      (ms.reverse.find? (fun p => toLowerStr p.1 == k)).elim
        (dictGet d k) (fun p => some (some p.2)) := by
  induction ms generalizing d with
  | nil => simp
  | cons m mt ih =>
    simp only [List.foldl_cons, List.reverse_cons]
    rw [ih, List.find?_append]
    cases hf : mt.reverse.find? (fun p => toLowerStr p.1 == k) with
    | some p => simp
    | none =>
      simp only [Option.none_or]
      rw [dictGet_dictSet]
      by_cases he : k = toLowerStr m.1
      · have hx : (toLowerStr m.1 == k) = true := by simpa [beq_iff_eq] using he.symm
        simp [List.find?_cons, hx, he]
      · have hx : (toLowerStr m.1 == k) = false :=
          beq_eq_false_iff_ne.mpr (fun h2 => he h2.symm)
        simp [List.find?_cons, hx, he]

/-- C6: whenever every match of the default field pattern in a metadata
string has a non-empty value group (the case the claim describes), the Field
Parser succeeds and produces the mapping that sends each match's lowercased
key to the value of the last match with that (lowercased) key — later
matches overwrite earlier ones and duplicate keys raise no error; keys not
produced by any match are absent. -/
theorem c6_field_mapping (m : List Char)
    (h : ∀ p ∈ findall m, p.2 ≠ ([] : List Char)) :
    ∃ d, _parse_metadata m = Except.ok d ∧
      ∀ k, dictGet d k =
        ((findall m).reverse.find? (fun p => toLowerStr p.1 == k)).elim
          none (fun p => some (some p.2)) := by
  have hany : ((findall m).any (fun p => p.2.isEmpty)) = false := by
    rw [List.any_eq_false]
    intro p hp
    simpa [List.isEmpty_iff] using h p hp
  refine ⟨(findall m).foldl (fun acc p => dictSet acc (toLowerStr p.1) (some p.2)) [],
    ?_, fun k => ?_⟩
  · unfold _parse_metadata
    simp [hany]
  · have hb := buildLookup (findall m) [] k
    rw [show dictGet ([] : Dict) k = none from rfl] at hb
    exact hb

/-- The metadata chunk `x1, AUTHOR = \x7bSmith\x7d` (uppercased key). -/
def exAuthorUpper : List Char :=
  ['x', '1', ',', ' ', 'A', 'U', 'T', 'H', 'O', 'R', ' ', '=', ' ', lb, 'S', 'm', 'i', 't', 'h', rb]

/-- The metadata chunk `x1, author = \x7bSmith\x7d` (lowercased key). -/
def exAuthorLower : List Char :=
  ['x', '1', ',', ' ', 'a', 'u', 't', 'h', 'o', 'r', ' ', '=', ' ', lb, 'S', 'm', 'i', 't', 'h', rb]

/-- The key `author`. -/
def authorKey : List Char := ['a', 'u', 't', 'h', 'o', 'r']

/-- The value `Smith`. -/
def smithVal : List Char := ['S', 'm', 'i', 't', 'h']

/-- Witness for C6, including the claim's concrete instance: `AUTHOR = \x7bSmith\x7d`
and `author = \x7bSmith\x7d` both yield the key `author` with the value `Smith`
preserved verbatim. -/
theorem c6_witness :
    (∀ p ∈ findall exAuthorUpper, p.2 ≠ ([] : List Char)) ∧
    (∃ d, _parse_metadata exAuthorUpper = Except.ok d ∧
      ∀ k, dictGet d k =
        ((findall exAuthorUpper).reverse.find? (fun p => toLowerStr p.1 == k)).elim
          none (fun p => some (some p.2))) ∧
    _parse_metadata exAuthorUpper = Except.ok [(authorKey, some smithVal)] ∧
    _parse_metadata exAuthorLower = Except.ok [(authorKey, some smithVal)] :=
  ⟨by decide, c6_field_mapping exAuthorUpper (by decide), by rfl, by rfl⟩

/-- A present key is found by lookup. -/
theorem hasKey_of_dictGet (d : Dict) (k : List Char) (v : Option (List Char))
    (h : dictGet d k = some v) : hasKey d k = true := by
  induction d with
  | nil => simp [dictGet] at h
  | cons p d ih =>
    by_cases hp : p.1 = k
    · simp [hasKey, hp]
    · rw [show dictGet (p :: d) k = dictGet d k by simp [dictGet, hp]] at h
      simp [hasKey, ih h]

/-- A concrete DOI value `10.1/x`. -/
def exDoi : List Char := ['1', '0', '.', '1', '/', 'x']

/-- An entry carrying a `doi` field. -/
def entryWithDoi : Dict := [(doiKey, some exDoi)]

/-- An entry without a `doi` field. -/
def entryNoDoi : Dict := [(authorKey, some smithVal)]

/-- Counterexample to C1 as stated: when the DOI lookup fails with a network
error, `add_urls_from_doi` still *adds* the `doi_url` and `url` keys — bound
to `None` — to the affected record (lines 106-107 assign the result of
`_get_url_from_doi` unconditionally); the other entry is untouched and no
exception escapes. -/
theorem c1_counterexample :
    add_urls_from_doi httpFail [entryWithDoi, entryNoDoi] =
      [[(doiKey, some exDoi), (doiUrlKey, none), (urlKey, none)], entryNoDoi] ∧
    hasKey ((add_urls_from_doi httpFail [entryWithDoi, entryNoDoi]).headD []) doiUrlKey = true ∧
    hasKey ((add_urls_from_doi httpFail [entryWithDoi, entryNoDoi]).headD []) urlKey = true := by
  refine ⟨by rfl, by rfl, by rfl⟩

/-- C1 (amended): for every parsed entry whose `doi` field triggers a DOI
lookup that fails with a network/request error, `add_urls_from_doi` leaves
that entry's record with the keys `doi_url` and `url` present and bound to
null (`None`); no exception escapes the call site (the function is total and
returns normally), and no other entry's record is affected by that failure —
entry `j` of the output depends only on entry `j` of the input. -/
theorem c1_amended_urls_null (http : List Char → Except Unit (List Char))
    (es : List Dict) (i : Nat) (e : Dict) (d : List Char)
    (he : es[i]? = some e)
    (hd : dictGet e doiKey = some (some d))
    (hf : http (doiBase ++ d) = Except.error ()) :
    ∃ r, (add_urls_from_doi http es)[i]? = some r ∧
      dictGet r doiUrlKey = some none ∧
      dictGet r urlKey = some none ∧
      ∀ j : Nat, (add_urls_from_doi http es)[j]? = (es[j]?).map (add_url_entry http) := by
  have hmap : ∀ j : Nat, (add_urls_from_doi http es)[j]? = (es[j]?).map (add_url_entry http) := by
    intro j
    simp [add_urls_from_doi]
  have hu : _get_url_from_doi http ((dictGet e doiKey).join) = none := by
    rw [hd]
    simp [_get_url_from_doi, hf]
  have hentry : add_url_entry http e =
      dictSet (dictSet e doiUrlKey none) urlKey none := by
    unfold add_url_entry
    rw [if_pos (hasKey_of_dictGet e doiKey (some d) hd), hu]
  refine ⟨dictSet (dictSet e doiUrlKey none) urlKey none, ?_, ?_, ?_, hmap⟩
  · rw [hmap i, he]
    simp [hentry]
  · rw [dictGet_dictSet, if_neg (by decide), dictGet_dictSet, if_pos rfl]
  · rw [dictGet_dictSet, if_pos rfl]

/-- Witness for C1 (amended) at a concrete failing lookup. -/
theorem c1_amended_witness :
    ([entryWithDoi, entryNoDoi] : List Dict)[0]? = some entryWithDoi ∧
    dictGet entryWithDoi doiKey = some (some exDoi) ∧
    httpFail (doiBase ++ exDoi) = Except.error () ∧
    (∃ r, (add_urls_from_doi httpFail [entryWithDoi, entryNoDoi])[0]? = some r ∧
      dictGet r doiUrlKey = some none ∧
      dictGet r urlKey = some none ∧
      ∀ j : Nat, (add_urls_from_doi httpFail [entryWithDoi, entryNoDoi])[j]? =
        (([entryWithDoi, entryNoDoi] : List Dict)[j]?).map (add_url_entry httpFail)) :=
  ⟨by rfl, by rfl, by rfl,
    c1_amended_urls_null httpFail [entryWithDoi, entryNoDoi] 0 entryWithDoi exDoi
      (by rfl) (by rfl) (by rfl)⟩

/-- Appending on the right does not change `takeWhile` when the left part
already contains a failing element. -/
theorem takeWhile_append_left {p : Char → Bool} (a b : List Char)
    (h : a.dropWhile p ≠ []) :
    (a ++ b).takeWhile p = a.takeWhile p := by
  induction a with
  | nil => simp [List.dropWhile] at h
  | cons x xs ih =>
    by_cases hx : p x
    · rw [List.cons_append, List.takeWhile_cons, if_pos hx, List.takeWhile_cons, if_pos hx,
        ih (by simpa [List.dropWhile_cons, hx] using h)]
    · rw [List.cons_append, List.takeWhile_cons, if_neg (by simpa using hx),
        List.takeWhile_cons, if_neg (by simpa using hx)]

/-- Appending on the right distributes over `dropWhile` when the left part
already contains a failing element. -/
theorem dropWhile_append_left {p : Char → Bool} (a b : List Char)
    (h : a.dropWhile p ≠ []) :
    (a ++ b).dropWhile p = a.dropWhile p ++ b := by
  rw [List.dropWhile_append, if_neg (by simpa [List.isEmpty_eq_true] using h)]

/-- The head surviving `dropWhile` fails the predicate. -/
theorem dropWhile_head_not {p : Char → Bool} (l : List Char) (c : Char) (t : List Char)
    (h : l.dropWhile p = c :: t) : p c = false := by
  induction l with
  | nil => simp [List.dropWhile] at h
  | cons x xs ih =>
    by_cases hx : p x
    · exact ih (by simpa [List.dropWhile_cons, hx] using h)
    · rw [List.dropWhile_cons, if_neg (by simpa using hx)] at h
      cases h
      simpa using hx

/-- `dropWhile` is idempotent. -/
theorem dropWhile_idem {p : Char → Bool} (l : List Char) :
    (l.dropWhile p).dropWhile p = l.dropWhile p := by
  cases h : l.dropWhile p with
  | nil => simp
  | cons c t =>
    rw [List.dropWhile_cons, if_neg (by simp [dropWhile_head_not l c t h])]

/-- `rstrip` commutes with a cons whose head is not whitespace. -/
theorem rstrip_cons (c : Char) (t : List Char) (h : isPySpace c = false) :
    rstrip (c :: t) = c :: rstrip t := by
  unfold rstrip
  rw [List.reverse_cons, List.dropWhile_append]
  by_cases hh : (t.reverse.dropWhile isPySpace).isEmpty
  · rw [if_pos hh]
    have ht : (t.reverse.dropWhile isPySpace).reverse = [] := by
      simp [List.isEmpty_eq_true.mp hh]
    rw [List.dropWhile_cons, if_neg (by simp [h])]
    simp [ht]
  · rw [if_neg hh]
    simp [List.reverse_append]

/-- `rstrip` is idempotent. -/
theorem rstrip_idem (l : List Char) : rstrip (rstrip l) = rstrip l := by
  unfold rstrip
  rw [List.reverse_reverse, dropWhile_idem]

/-- Python `strip` is idempotent. -/
theorem pyStrip_idem (l : List Char) : pyStrip (pyStrip l) = pyStrip l := by
  unfold pyStrip
  have hz : lstrip (lstrip l) = lstrip l := dropWhile_idem l
  have h1 : lstrip (rstrip (lstrip l)) = rstrip (lstrip l) := by
    cases hc : lstrip l with
    | nil => simp [lstrip, rstrip, List.dropWhile]
    | cons c t =>
      have hcns : isPySpace c = false := dropWhile_head_not l c t hc
      rw [rstrip_cons c t hcns]
      unfold lstrip
      rw [List.dropWhile_cons, if_neg (by simp [hcns])]
  rw [h1, rstrip_idem]

/-- A delimiter match at the head survives appending more input to the right. -/
theorem matchDelim_append (x y dl r : List Char) (h : matchDelim x = some (dl, r)) :
    matchDelim (x ++ y) = some (dl, r ++ y) := by
  match x with
  | [] => simp [matchDelim] at h
  | c :: rest =>
    by_cases hc : c = atChar
    · cases hdw : rest.dropWhile Char.isAlpha with
      | nil => simp [matchDelim, hc, hdw] at h
      | cons d r2 =>
        by_cases hL : rest.takeWhile Char.isAlpha = []
        · simp [matchDelim, hc, hdw, hL] at h
        · by_cases hd : d = lb
          · have hx : matchDelim (c :: rest) =
                some (atChar :: (rest.takeWhile Char.isAlpha ++ [lb]), r2) := by
              simp [matchDelim, hc, hdw, hL, hd]
            rw [hx] at h
            obtain ⟨h1, h2⟩ := Prod.mk.injEq .. ▸ Option.some.injEq .. ▸ h
            rw [List.cons_append]
            have htw : (rest ++ y).takeWhile Char.isAlpha = rest.takeWhile Char.isAlpha :=
              takeWhile_append_left rest y (by rw [hdw]; simp)
            have hdw2 : (rest ++ y).dropWhile Char.isAlpha = d :: (r2 ++ y) := by
              rw [dropWhile_append_left rest y (by rw [hdw]; simp), hdw]
              rfl
            simp [matchDelim, hc, htw, hdw2, hL, hd, ← h1, ← h2]
          · simp [matchDelim, hc, hdw, hL, hd] at h
    · simp [matchDelim, hc] at h

/-- If a text has no delimiter occurrence, neither has any suffix reached by
splitting off a left part. -/
theorem contains_of_append_right (a b : List Char)
    (h : containsDelim (a ++ b) = false) : containsDelim b = false := by
  induction a with
  | nil => simpa using h
  | cons x a ih =>
    rw [List.cons_append] at h
    simp only [containsDelim, Bool.or_eq_false_iff] at h
    exact ih h.2

/-- If a text has no delimiter occurrence, neither has any left part. -/
theorem contains_of_append_left (a b : List Char)
    (h : containsDelim (a ++ b) = false) : containsDelim a = false := by
  induction a with
  | nil => simp [containsDelim]
  | cons x a ih =>
    rw [List.cons_append] at h
    simp only [containsDelim, Bool.or_eq_false_iff] at h ⊢
    refine ⟨?_, ih h.2⟩
    have h1 := h.1
    cases hmm : matchDelim (x :: a) with
    | none => rfl
    | some pr =>
      have := matchDelim_append (x :: a) b pr.1 pr.2 (by rw [hmm])
      rw [List.cons_append] at this
      rw [this] at h1
      simp at h1

/-- Stripping whitespace cannot create a delimiter occurrence. -/
theorem containsDelim_pyStrip (s : List Char) (h : containsDelim s = false) :
    containsDelim (pyStrip s) = false := by
  have h1 : containsDelim (lstrip s) = false := by
    refine contains_of_append_right (s.takeWhile isPySpace) (lstrip s) ?_
    unfold lstrip
    rw [List.takeWhile_append_dropWhile]
    exact h
  have h2 : lstrip s = pyStrip s ++ ((lstrip s).reverse.takeWhile isPySpace).reverse := by
    conv_lhs => rw [← List.reverse_reverse (lstrip s),
      ← List.takeWhile_append_dropWhile isPySpace ((lstrip s).reverse)]
    rw [List.reverse_append]
    rfl
  exact contains_of_append_left _ _ (by rw [← h2]; exact h1)

/-- On delimiter-free input the chunk splitter returns the single segment
consisting of the whole input. -/
theorem splitChunksAux_no_delim (l : List Char) (h : containsDelim l = false) :
    ∀ fuel acc, splitChunksAux fuel acc l = [acc.reverse ++ l] := by
  induction l with
  | nil =>
    intro fuel acc
    cases fuel <;> simp [splitChunksAux]
  | cons c r ih =>
    intro fuel acc
    simp only [containsDelim, Bool.or_eq_false_iff] at h
    have hm : matchDelim (c :: r) = none := by
      have h1 := h.1
      cases hmm : matchDelim (c :: r) with
      | none => rfl
      | some pr =>
        rw [hmm] at h1
        simp at h1
    cases fuel with
    | zero => simp [splitChunksAux]
    | succ fuel =>
      rw [show splitChunksAux (fuel + 1) acc (c :: r) = splitChunksAux fuel (c :: acc) r by
            simp [splitChunksAux, hm]]
      rw [ih h.2 fuel (c :: acc)]
      simp

/-- Plain text with no `@type` delimiter anywhere. -/
def exPlainText : List Char := ['h', 'e', 'l', 'l', 'o']

/-- Counterexample to C5 as stated: the input `hello` contains no entry
delimiter, yet `extract_metadata` yields one metadata chunk (the whole
trimmed text), not an empty sequence: with no match, `re.split` returns the
whole string as a single segment, and that segment passes the filter because
it is non-empty and does not start with `@`. -/
theorem c5_counterexample :
    containsDelim exPlainText = false ∧
    extract_metadata exPlainText = [exPlainText] ∧
    exPlainText ≠ [] := by
  refine ⟨by rfl, by rfl, by decide⟩

/-- C5 (amended): for every input text containing no entry delimiter (no
occurrence of `@` + letters + `\x7b`), `extract_metadata` raises no error and
yields the empty sequence exactly when the trimmed text is empty or begins
with `@`; otherwise it yields exactly one metadata chunk, the trimmed text
itself. -/
theorem c5_amended_no_delim (s : List Char) (h : containsDelim s = false) :
    extract_metadata s =
      (if pyStrip s = [] ∨ (pyStrip s).head? = some atChar
       then [] else [pyStrip s]) := by
  have h2 : containsDelim (pyStrip s) = false := containsDelim_pyStrip s h
  unfold extract_metadata splitChunks
  rw [splitChunksAux_no_delim (pyStrip s) h2 (pyStrip s).length []]
  simp only [List.reverse_nil, List.nil_append]
  have hstrip : pyStrip (pyStrip s) = pyStrip s := pyStrip_idem s
  cases hc : pyStrip s with
  | nil => simp [extractEntryMetadata, show pyStrip ([] : List Char) = [] from rfl]
  | cons c rest =>
    rw [hc] at hstrip
    by_cases hat : c = atChar
    · subst hat
      simp [extractEntryMetadata, hstrip]
    · simp [extractEntryMetadata, hstrip, hat]

/-- Witness for C5 (amended) at the concrete delimiter-free input `hello`. -/
theorem c5_witness :
    containsDelim exPlainText = false ∧
    extract_metadata exPlainText =
      (if pyStrip exPlainText = [] ∨ (pyStrip exPlainText).head? = some atChar
       then [] else [pyStrip exPlainText]) :=
  ⟨by rfl, c5_amended_no_delim exPlainText (by rfl)⟩

/-- `rstrip` over a cons whose head is whitespace: the head survives exactly
when something non-whitespace follows. -/
theorem rstrip_cons_space (c : Char) (t : List Char) (h : isPySpace c = true) :
    rstrip (c :: t) = if rstrip t = [] then [] else c :: rstrip t := by
  unfold rstrip
  rw [List.reverse_cons, List.dropWhile_append]
  by_cases hh : (t.reverse.dropWhile isPySpace).isEmpty
  · rw [if_pos hh]
    simp [List.dropWhile_cons, h, List.isEmpty_eq_true.mp hh]
  · rw [if_neg hh]
    have hne : (t.reverse.dropWhile isPySpace).reverse ≠ [] := by
      intro hx
      rw [List.reverse_eq_nil_iff] at hx
      exact hh (by simp [List.isEmpty_eq_true, hx])
    simp [List.reverse_append, hne]

/-- Left and right stripping commute. -/
theorem strip_commute (l : List Char) : lstrip (rstrip l) = rstrip (lstrip l) := by
  induction l with
  | nil => rfl
  | cons c t ih =>
    by_cases hc : isPySpace c
    · rw [rstrip_cons_space c t hc,
        show lstrip (c :: t) = lstrip t by simp [lstrip, List.dropWhile_cons, hc]]
      by_cases ht : rstrip t = []
      · rw [if_pos ht]
        have hall : ∀ x ∈ t, isPySpace x = true := by
          have h0 : t.reverse.dropWhile isPySpace = [] := by
            have := ht
            unfold rstrip at this
            rwa [List.reverse_eq_nil_iff] at this
          intro x hx
          exact List.dropWhile_eq_nil_iff.mp h0 x (List.mem_reverse.mpr hx)
        have h2 : lstrip t = [] := List.dropWhile_eq_nil_iff.mpr hall
        rw [h2]
        rfl
      · rw [if_neg ht,
          show lstrip (c :: rstrip t) = lstrip (rstrip t) by
            simp [lstrip, List.dropWhile_cons, hc]]
        exact ih
    · have hc' : isPySpace c = false := by simpa using hc
      rw [rstrip_cons c t hc',
        show lstrip (c :: rstrip t) = c :: rstrip t by
          simp [lstrip, List.dropWhile_cons, hc'],
        show lstrip (c :: t) = c :: t by simp [lstrip, List.dropWhile_cons, hc'],
        rstrip_cons c t hc']

/-- `rstrip` returns `[]` exactly on all-whitespace input. -/
theorem rstrip_nil_iff (l : List Char) :
    rstrip l = [] ↔ ∀ c ∈ l, isPySpace c = true := by
  unfold rstrip
  rw [List.reverse_eq_nil_iff, List.dropWhile_eq_nil_iff]
  constructor
  · intro h c hc
    exact h c (List.mem_reverse.mpr hc)
  · intro h c hc
    exact h c (List.mem_reverse.mp hc)

/-- A string with a non-whitespace character keeps a non-empty `rstrip`. -/
theorem rstrip_ne_nil_of_pyStrip (b : List Char) (h : pyStrip b ≠ []) :
    rstrip b ≠ [] := by
  intro hr
  apply h
  have hall := (rstrip_nil_iff b).mp hr
  have h2 : lstrip b = [] := List.dropWhile_eq_nil_iff.mpr hall
  unfold pyStrip
  rw [h2]
  rfl

/-- Right-stripping first does not change the full strip. -/
theorem pyStrip_rstrip (b : List Char) : pyStrip (rstrip b) = pyStrip b := by
  unfold pyStrip
  rw [strip_commute b]
  exact rstrip_idem _

/-- `rstrip` of an append whose right part survives. -/
theorem rstrip_append (a b : List Char) (h : rstrip b ≠ []) :
    rstrip (a ++ b) = a ++ rstrip b := by
  have hne : ¬(b.reverse.dropWhile isPySpace).isEmpty = true := by
    rw [List.isEmpty_eq_true]
    intro hx
    exact h (by simp [rstrip, hx])
  unfold rstrip
  rw [List.reverse_append, List.dropWhile_append, if_neg hne, List.reverse_append,
    List.reverse_reverse]

/-- Membership is preserved from `rstrip` into the original list. -/
theorem mem_rstrip (c : Char) (l : List Char) (h : c ∈ rstrip l) : c ∈ l := by
  unfold rstrip at h
  rw [List.mem_reverse] at h
  have h2 := (List.dropWhile_sublist isPySpace).subset h
  exact List.mem_reverse.mp h2

/-- Membership is preserved from `lstrip` into the original list. -/
theorem mem_lstrip (c : Char) (l : List Char) (h : c ∈ lstrip l) : c ∈ l :=
  (List.dropWhile_sublist isPySpace).subset h

/-- Membership is preserved from `pyStrip` into the original list. -/
theorem mem_pyStrip (c : Char) (l : List Char) (h : c ∈ pyStrip l) : c ∈ l :=
  mem_lstrip c l (mem_rstrip c (lstrip l) h)

/-- `takeWhile`/`dropWhile` on an all-satisfying block followed by a failing
element. -/
theorem takeWhile_all_append {p : Char → Bool} (T r : List Char) (x : Char)
    (hA : ∀ c ∈ T, p c = true) (hx : p x = false) :
    (T ++ x :: r).takeWhile p = T ∧ (T ++ x :: r).dropWhile p = x :: r := by
  induction T with
  | nil => simp [List.takeWhile_cons, List.dropWhile_cons, hx]
  | cons a T ih =>
    have ha : p a = true := hA a (List.mem_cons_self a T)
    have ih2 := ih (fun c hc => hA c (List.mem_cons_of_mem a hc))
    constructor
    · rw [List.cons_append, List.takeWhile_cons, if_pos ha, ih2.1]
    · rw [List.cons_append, List.dropWhile_cons, if_pos ha, ih2.2]

/-- One bibliography entry of the shape `@<type>\x7b<body>`. -/
structure BibEntry where
  etype : List Char
  body : List Char
deriving DecidableEq, Repr

/-- The delimiter token `@<type>\x7b` captured by the split pattern. -/
def delimText (e : BibEntry) : List Char := atChar :: (e.etype ++ [lb])

/-- The full source text of one entry. -/
def entryText (e : BibEntry) : List Char := atChar :: (e.etype ++ lb :: e.body)

/-- Well-formedness of one entry for the chunking claim: the type is a
non-empty letter run, and the body contains no `@` (so it contains no further
delimiter and is not filtered out) and is not pure whitespace. -/
def goodEntry (e : BibEntry) : Prop :=
  e.etype ≠ [] ∧ (∀ c ∈ e.etype, c.isAlpha = true) ∧ atChar ∉ e.body ∧ pyStrip e.body ≠ []

/-- An entry's text is its delimiter token followed by its body. -/
theorem entryText_eq (e : BibEntry) : entryText e = delimText e ++ e.body := by
  unfold entryText delimText
  rw [List.cons_append, List.append_assoc, List.singleton_append]

/-- The chunk-split pattern matches exactly the delimiter token at the head
of a well-formed entry. -/
theorem matchDelim_entry (T rest : List Char) (hT : T ≠ [])
    (hA : ∀ c ∈ T, c.isAlpha = true) :
    matchDelim (atChar :: (T ++ lb :: rest)) = some (atChar :: (T ++ [lb]), rest) := by
  have h := takeWhile_all_append T rest lb hA (by decide)
  simp [matchDelim, h.1, h.2, hT]

/-- Scanning a delimiter-free block accumulates it into the current segment. -/
theorem splitChunksAux_body (B : List Char) (hB : atChar ∉ B) :
    ∀ m acc fuel, B.length + m.length ≤ fuel →
      splitChunksAux fuel acc (B ++ m) =
        splitChunksAux (fuel - B.length) (B.reverse ++ acc) m := by
  induction B with
  | nil =>
    intro m acc fuel hf
    simp
  | cons b B ih =>
    intro m acc fuel hf
    have hb : b ≠ atChar := by
      intro hx
      exact hB (by simp [hx])
    have hm : matchDelim (b :: (B ++ m)) = none := by
      simp [matchDelim, hb]
    cases fuel with
    | zero =>
      exfalso
      simp at hf
    | succ fuel =>
      rw [List.cons_append,
        show splitChunksAux (fuel + 1) acc (b :: (B ++ m)) =
          splitChunksAux fuel (b :: acc) (B ++ m) by simp [splitChunksAux, hm]]
      rw [ih (fun hx => hB (List.mem_cons_of_mem b hx)) m (b :: acc) fuel
        (by simp at hf; omega)]
      have harr : B.reverse ++ (b :: acc) = (b :: B).reverse ++ acc := by
        simp
      rw [harr]
      have hfl : fuel - B.length = fuel + 1 - (b :: B).length := by
        simp
      rw [hfl]

/-- Splitting the concatenation of well-formed entries produces the leading
(empty) segment followed by alternating delimiter tokens and bodies. -/
theorem splitChunksAux_entries (es : List BibEntry)
    (h : ∀ e ∈ es, e.etype ≠ [] ∧ (∀ c ∈ e.etype, c.isAlpha = true) ∧ atChar ∉ e.body) :
    ∀ acc fuel, ((es.map entryText).flatten).length ≤ fuel →
      splitChunksAux fuel acc ((es.map entryText).flatten) =
        acc.reverse :: es.flatMap (fun e => [delimText e, e.body]) := by
  induction es with
  | nil =>
    intro acc fuel _
    simp [splitChunksAux]
  | cons e es ih =>
    intro acc fuel hf
    obtain ⟨hT, hA, hB⟩ := h e (List.mem_cons_self e es)
    rw [List.map_cons, List.flatten_cons] at hf ⊢
    have hbody : entryText e ++ (es.map entryText).flatten =
        atChar :: (e.etype ++ lb :: (e.body ++ (es.map entryText).flatten)) := by
      unfold entryText
      rw [List.cons_append, List.append_assoc]
      rfl
    rw [hbody]
    cases fuel with
    | zero =>
      exfalso
      rw [hbody] at hf
      simp at hf
    | succ fuel =>
      rw [show splitChunksAux (fuel + 1) acc
            (atChar :: (e.etype ++ lb :: (e.body ++ (es.map entryText).flatten))) =
          acc.reverse :: (atChar :: (e.etype ++ [lb])) ::
            splitChunksAux fuel [] (e.body ++ (es.map entryText).flatten) by
        simp [splitChunksAux, matchDelim_entry e.etype (e.body ++ (es.map entryText).flatten) hT hA]]
      have hlen : e.body.length + ((es.map entryText).flatten).length ≤ fuel := by
        rw [hbody] at hf
        simp only [List.length_cons, List.length_append] at hf
        omega
      rw [splitChunksAux_body e.body hB ((es.map entryText).flatten) [] fuel hlen]
      rw [ih (fun x hx => h x (List.mem_cons_of_mem e hx)) (e.body.reverse ++ []) _
        (by omega)]
      rw [List.flatMap_cons]
      simp [delimText]

/-- A delimiter token is already stripped (it starts with `@` and ends with
`\x7b`). -/
theorem pyStrip_delimText (e : BibEntry) : pyStrip (delimText e) = delimText e := by
  have h0 : delimText e = (atChar :: e.etype) ++ [lb] := by
    unfold delimText
    rw [List.cons_append]
  have h1 : rstrip ([lb] : List Char) = [lb] := by rfl
  unfold pyStrip
  rw [show lstrip (delimText e) = delimText e by
        unfold delimText lstrip
        rw [List.dropWhile_cons, if_neg (by decide)]]
  rw [h0, rstrip_append _ _ (by rw [h1]; simp), h1]

/-- Filtering the alternating delimiter/body segments keeps exactly the
stripped bodies, in order. -/
theorem filterPieces (es : List BibEntry)
    (h : ∀ e ∈ es, atChar ∉ e.body ∧ pyStrip e.body ≠ []) :
    (es.flatMap (fun e => [delimText e, e.body])).filterMap extractEntryMetadata =
      es.map (fun e => pyStrip e.body) := by
  induction es with
  | nil => simp
  | cons e es ih =>
    obtain ⟨hB, hS⟩ := h e (List.mem_cons_self e es)
    rw [List.flatMap_cons, List.filterMap_append]
    have hd : extractEntryMetadata (delimText e) = none := by
      unfold extractEntryMetadata
      rw [pyStrip_delimText]
      unfold delimText
      simp
    have hb : extractEntryMetadata e.body = some (pyStrip e.body) := by
      unfold extractEntryMetadata
      cases hc : pyStrip e.body with
      | nil => exact absurd hc hS
      | cons c t =>
        have hcm : c ∈ e.body := mem_pyStrip c e.body (by rw [hc]; exact List.mem_cons_self c t)
        have hcat : c ≠ atChar := fun hx => hB (hx ▸ hcm)
        simp [hcat]
    rw [show List.filterMap extractEntryMetadata [delimText e, e.body] = [pyStrip e.body] by
          simp [List.filterMap_cons, hd, hb]]
    rw [ih (fun x hx => h x (List.mem_cons_of_mem e hx))]
    simp

/-- C9: for every well-formed BibTeX text that is the concatenation of `N`
entries, each introduced by a delimiter of the form `@` + letters + `\x7b`
(with a body that contains no `@` and is not pure whitespace),
`extract_metadata` produces exactly `N` metadata chunks — the stripped entry
bodies — in source order. -/
theorem c9_count_preservation (es : List BibEntry) (h : ∀ e ∈ es, goodEntry e) :
    extract_metadata ((es.map entryText).flatten) =
      es.map (fun e => pyStrip e.body) := by
  rcases List.eq_nil_or_concat es with rfl | ⟨es0, eN, hce⟩
  · rfl
  · subst hce
    simp only [List.concat_eq_append] at h ⊢
    have hgN : goodEntry eN := h eN (by simp)
    set eN' : BibEntry := { etype := eN.etype, body := rstrip eN.body } with heN
    set es' : List BibEntry := es0 ++ [eN'] with hes
    have hg' : ∀ e ∈ es', goodEntry e := by
      intro x hx
      rw [hes] at hx
      rcases List.mem_append.mp hx with h1 | h1
      · exact h x (List.mem_append.mpr (Or.inl h1))
      · have hx2 : x = eN' := by simpa using h1
        subst hx2
        refine ⟨hgN.1, hgN.2.1, ?_, ?_⟩
        · intro hm
          exact hgN.2.2.1 (mem_rstrip _ _ hm)
        · rw [heN]
          simp only
          rw [pyStrip_rstrip]
          exact hgN.2.2.2
    have htext : ((es0 ++ [eN]).map entryText).flatten =
        ((es0.map entryText).flatten ++ delimText eN) ++ eN.body := by
      rw [List.map_append, List.flatten_append]
      simp [entryText_eq eN, List.append_assoc]
    have hrs : rstrip (((es0 ++ [eN]).map entryText).flatten) =
        ((es0.map entryText).flatten ++ delimText eN) ++ rstrip eN.body := by
      rw [htext, rstrip_append _ _ (rstrip_ne_nil_of_pyStrip _ hgN.2.2.2)]
    have hls : lstrip (((es0 ++ [eN]).map entryText).flatten) =
        ((es0 ++ [eN]).map entryText).flatten := by
      obtain ⟨f, tl, hft⟩ : ∃ f tl, (es0 ++ [eN]).map entryText = entryText f :: tl := by
        cases es0 with
        | nil => exact ⟨eN, [], by simp⟩
        | cons a l => exact ⟨a, (l ++ [eN]).map entryText, by simp⟩
      rw [hft, List.flatten_cons]
      unfold entryText lstrip
      rw [List.cons_append, List.dropWhile_cons, if_neg (by decide)]
    have hstrip : pyStrip (((es0 ++ [eN]).map entryText).flatten) =
        (es'.map entryText).flatten := by
      unfold pyStrip
      rw [hls, hrs, hes, List.map_append, List.flatten_append]
      simp only [List.map_cons, List.map_nil, List.flatten_cons, List.flatten_nil,
        List.append_nil]
      rw [entryText_eq eN']
      rw [List.append_assoc]
      rfl
    unfold extract_metadata splitChunks
    rw [hstrip]
    rw [splitChunksAux_entries es'
      (fun x hx => ⟨(hg' x hx).1, (hg' x hx).2.1, (hg' x hx).2.2.1⟩) [] _ (le_refl _)]
    rw [show (([] : List Char).reverse :: es'.flatMap (fun e => [delimText e, e.body])).filterMap
          extractEntryMetadata =
        (es'.flatMap (fun e => [delimText e, e.body])).filterMap extractEntryMetadata by
      rw [List.reverse_nil, List.filterMap_cons]
      rfl]
    rw [filterPieces es' (fun x hx => ⟨(hg' x hx).2.2.1, (hg' x hx).2.2.2⟩)]
    rw [hes, List.map_append, List.map_append]
    simp [heN, pyStrip_rstrip]

/-- Well-formedness of an entry is decidable (used to check concrete inputs). -/
instance (e : BibEntry) : Decidable (goodEntry e) := by
  unfold goodEntry
  infer_instance

/-- The entry `@article\x7bk1, t = y` as structured data. -/
def entryA : BibEntry :=
  { etype := ['a', 'r', 't', 'i', 'c', 'l', 'e'],
    body := ['k', '1', ',', ' ', 't', ' ', '=', ' ', 'y'] }

/-- The entry `@book\x7bk2, u = z\x7d` as structured data. -/
def entryB : BibEntry :=
  { etype := ['b', 'o', 'o', 'k'],
    body := ['k', '2', ',', ' ', 'u', ' ', '=', ' ', 'z', rb] }

/-- Witness for C9 on a concrete two-entry text: exactly two chunks, the two
stripped bodies, in source order. -/
theorem c9_witness :
    (∀ e ∈ [entryA, entryB], goodEntry e) ∧
    extract_metadata (([entryA, entryB].map entryText).flatten) =
      [entryA, entryB].map (fun e => pyStrip e.body) :=
  ⟨by decide, c9_count_preservation [entryA, entryB] (by decide)⟩
